import Mathlib

/-!
Verification of the string-scrubbing core of BRL-CAD strclear
(src/strclear.cpp), shallowly embedded over lists.

Buffers and strings are modelled as `List α` with decidable equality
(`Nat` for binary byte buffers, `Char` for text).  The C++ scan loops
(`std::search` / `std::string::find` driven while loops) are modelled as
fuel-indexed recursive functions; for a non-empty target each loop
iteration advances the scan position past the match, so a fuel of
`length + 1` is always sufficient (proved below where needed).
-/

namespace StrClear

variable {α : Type} [DecidableEq α]

/-- `matchAt tgt buf` holds when `tgt` occurs at the head of `buf`
(the element-by-element comparison performed by `std::search` /
`std::string::find` at one candidate offset). -/
def matchAt : List α → List α → Bool
  | [], _ => true
  | _ :: _, [] => false
  | t :: ts, b :: bs => decide (t = b) && matchAt ts bs

/-- First offset `i` in `buf` at which `tgt` occurs, if any: the search
both `std::search` (strclear.cpp:152) and `std::string::find`
(strclear.cpp:207) perform from the start of a range. -/
def firstMatch (tgt : List α) : List α → Option Nat
  | [] => if matchAt tgt [] then some 0 else none
  | b :: bs =>
    if matchAt tgt (b :: bs) then some 0
    else (firstMatch tgt bs).map (· + 1)

/-- `findFrom buf tgt pos` is the first offset `≥ pos` at which `tgt`
occurs in `buf`: models `std::string::find(tgt, pos)` and the resumed
`std::search(position, end, ...)`. -/
def findFrom (buf tgt : List α) (pos : Nat) : Option Nat :=
  (firstMatch tgt (buf.drop pos)).map (· + pos)

theorem matchAt_length {tgt buf : List α} (h : matchAt tgt buf = true) :
    tgt.length ≤ buf.length := by
  induction tgt generalizing buf with
  | nil => simp
  | cons t ts ih =>
    cases buf with
    | nil => simp [matchAt] at h
    | cons b bs =>
      simp only [matchAt, Bool.and_eq_true] at h
      simpa using ih h.2

theorem matchAt_iff {tgt buf : List α} :
    matchAt tgt buf = true ↔
      tgt.length ≤ buf.length ∧ ∀ k, k < tgt.length → buf.get? k = tgt.get? k := by
  induction tgt generalizing buf with
  | nil => simp [matchAt]
  | cons t ts ih =>
    cases buf with
    | nil =>
      simp [matchAt]
    | cons b bs =>
      simp only [matchAt, Bool.and_eq_true, decide_eq_true_eq, ih]
      constructor
      · rintro ⟨rfl, hlen, hall⟩
        refine ⟨by simpa using hlen, ?_⟩
        intro k hk
        cases k with
        | zero => simp
        | succ k =>
          simp only [List.get?_cons_succ]
          exact hall k (by simpa using hk)
      · rintro ⟨hlen, hall⟩
        have h0 := hall 0 (by simp)
        simp only [List.get?_cons_zero, Option.some.injEq] at h0
        refine ⟨h0.symm, by simpa using hlen, ?_⟩
        intro k hk
        have := hall (k + 1) (by simpa using hk)
        simpa using this

theorem firstMatch_none {tgt buf : List α} :
    firstMatch tgt buf = none ↔ ∀ i, matchAt tgt (buf.drop i) = false := by
  induction buf with
  | nil =>
    constructor
    · intro h i
      by_cases hm : matchAt tgt ([] : List α) = true
      · simp [firstMatch, hm] at h
      · simpa using (Bool.not_eq_true _).mp hm
    · intro h
      have h0 := h 0
      simp only [List.drop_nil] at h0
      simp [firstMatch, h0]
  | cons b bs ih =>
    constructor
    · intro h i
      by_cases hm : matchAt tgt (b :: bs) = true
      · simp [firstMatch, hm] at h
      · have hm' := (Bool.not_eq_true _).mp hm
        simp only [firstMatch, hm'] at h
        simp only [Bool.false_eq_true, if_false, Option.map_eq_none'] at h
        cases i with
        | zero => simpa using hm'
        | succ i => exact ih.mp h i
    · intro h
      have h0 := h 0
      simp only [List.drop_zero] at h0
      simp only [firstMatch, h0, Bool.false_eq_true, if_false, Option.map_eq_none']
      exact ih.mpr (fun i => by simpa using h (i + 1))

theorem firstMatch_some {tgt buf : List α} {i : Nat}
    (h : firstMatch tgt buf = some i) :
    matchAt tgt (buf.drop i) = true ∧ (∀ j, j < i → matchAt tgt (buf.drop j) = false) := by
  induction buf generalizing i with
  | nil =>
    by_cases hm : matchAt tgt ([] : List α) = true
    · simp only [firstMatch, hm, if_true, Option.some.injEq] at h
      subst h
      exact ⟨hm, by omega⟩
    · simp [firstMatch, (Bool.not_eq_true _).mp hm] at h
  | cons b bs ih =>
    by_cases hm : matchAt tgt (b :: bs) = true
    · simp only [firstMatch, hm, if_true, Option.some.injEq] at h
      subst h
      exact ⟨hm, by omega⟩
    · have hm' := (Bool.not_eq_true _).mp hm
      simp only [firstMatch, hm', Bool.false_eq_true, if_false, Option.map_eq_some'] at h
      obtain ⟨i', hi', rfl⟩ := h
      obtain ⟨h1, h2⟩ := ih hi'
      refine ⟨by simpa using h1, ?_⟩
      intro j hj
      cases j with
      | zero => simpa using hm'
      | succ j => simpa using h2 j (by omega)

theorem findFrom_none {buf tgt : List α} {pos : Nat} :
    findFrom buf tgt pos = none ↔ ∀ j, pos ≤ j → matchAt tgt (buf.drop j) = false := by
  simp only [findFrom, Option.map_eq_none', firstMatch_none]
  constructor
  · intro h j hj
    have h2 := h (j - pos)
    rw [List.drop_drop] at h2
    have he : pos + (j - pos) = j := by omega
    rwa [he] at h2
  · intro h i
    have h2 := h (pos + i) (by omega)
    rwa [List.drop_drop]

theorem findFrom_some {buf tgt : List α} {pos i : Nat}
    (h : findFrom buf tgt pos = some i) :
    pos ≤ i ∧ matchAt tgt (buf.drop i) = true ∧
      ∀ j, pos ≤ j → j < i → matchAt tgt (buf.drop j) = false := by
  simp only [findFrom, Option.map_eq_some'] at h
  obtain ⟨i', hi', rfl⟩ := h
  obtain ⟨h1, h2⟩ := firstMatch_some hi'
  rw [List.drop_drop] at h1
  refine ⟨by omega, by simpa [Nat.add_comm] using h1, ?_⟩
  intro j hj1 hj2
  have h3 := h2 (j - pos) (by omega)
  rw [List.drop_drop] at h3
  have he : pos + (j - pos) = j := by omega
  rwa [he] at h3

theorem findFrom_some_bound {buf tgt : List α} {pos i : Nat}
    (htgt : tgt ≠ []) (h : findFrom buf tgt pos = some i) :
    i + tgt.length ≤ buf.length := by
  obtain ⟨-, h2, -⟩ := findFrom_some h
  have hlen := matchAt_length h2
  rw [List.length_drop] at hlen
  have : 1 ≤ tgt.length := by
    cases tgt with
    | nil => exact absurd rfl htgt
    | cons t ts => simp
  omega

/-- Overwrite positions `[i, i+len)` of the buffer with the clear element
`c`, leaving the rest alone: the effect of
`std::copy(null_chars.begin(), null_chars.end(), position)` at match
offset `i` (strclear.cpp:153).  `j` is the index of the head of the
remaining list. -/
def clearRangeGo (c : α) (i len : Nat) : Nat → List α → List α
  | _, [] => []
  | j, b :: bs => (if i ≤ j ∧ j < i + len then c else b) :: clearRangeGo c i len (j + 1) bs

def clearRange (c : α) (i len : Nat) (buf : List α) : List α :=
  clearRangeGo c i len 0 buf

theorem length_clearRangeGo (c : α) (i len : Nat) :
    ∀ j buf, (clearRangeGo c i len j buf).length = buf.length := by
  intro j buf
  induction buf generalizing j with
  | nil => rfl
  | cons b bs ih => simp [clearRangeGo, ih]

theorem length_clearRange (c : α) (i len : Nat) (buf : List α) :
    (clearRange c i len buf).length = buf.length :=
  length_clearRangeGo c i len 0 buf

theorem get?_clearRangeGo (c : α) (i len : Nat) :
    ∀ j buf k, (clearRangeGo c i len j buf).get? k =
      if i ≤ j + k ∧ j + k < i + len ∧ k < buf.length then some c else buf.get? k := by
  intro j buf
  induction buf generalizing j with
  | nil => intro k; simp [clearRangeGo]
  | cons b bs ih =>
    intro k
    cases k with
    | zero =>
      by_cases hc : i ≤ j ∧ j < i + len
      · simp [clearRangeGo, hc, List.get?]
      · have hc2 : ¬(i ≤ j + 0 ∧ j + 0 < i + len ∧ 0 < (b :: bs).length) := by
          simp only [Nat.add_zero]
          intro hx
          exact hc ⟨hx.1, hx.2.1⟩
        simp [clearRangeGo, hc, hc2, List.get?]
    | succ k =>
      have ih2 := ih (j + 1) k
      simp only [clearRangeGo, List.get?_cons_succ, ih2, List.length_cons]
      split_ifs with h1 h2 h2 <;> first | rfl | omega

theorem get?_clearRange (c : α) (i len : Nat) (buf : List α) (k : Nat) :
    (clearRange c i len buf).get? k =
      if i ≤ k ∧ k < i + len ∧ k < buf.length then some c else buf.get? k := by
  have h := get?_clearRangeGo c i len 0 buf k
  simpa using h

theorem drop_clearRange {c : α} {i len m : Nat} {buf : List α} (h : i + len ≤ m) :
    (clearRange c i len buf).drop m = buf.drop m := by
  apply List.ext_get?
  intro n
  rw [List.get?_drop, List.get?_drop, get?_clearRange]
  have hc : ¬(i ≤ m + n ∧ m + n < i + len ∧ m + n < buf.length) := by omega
  simp [hc]

/-- One target's clearing scan in `process_binary` (strclear.cpp:151-159):
repeatedly `std::search` from the current position, overwrite the match
with clear characters, advance past the match, decrement the count.
`fuel` bounds the iteration count; `buf.length + 1` always suffices for a
non-empty target since each iteration advances the position. -/
def clearLoop (tgt : List α) (c : α) : Nat → List α → Nat → List α × Int
  | 0, buf, _ => (buf, 0)
  | fuel + 1, buf, pos =>
    match findFrom buf tgt pos with
    | none => (buf, 0)
    | some i =>
      let r := clearLoop tgt c fuel (clearRange c i tgt.length buf) (i + tgt.length)
      (r.1, r.2 - 1)

/-- One full pass of the binary clear for one target string. -/
def process_binary_pass (buf tgt : List α) (c : α) : List α × Int :=
  clearLoop tgt c (buf.length + 1) buf 0

/-- The in-memory part of `process_binary` (strclear.cpp:144-160): iterate
the clearing scan over all target strings, accumulating the (negative)
change count. -/
def process_binary_all (c : α) : List α → List (List α) → List α × Int
  | buf, [] => (buf, 0)
  | buf, t :: ts =>
    let r := process_binary_pass buf t c
    let r2 := process_binary_all c r.1 ts
    (r2.1, r.2 + r2.2)

/-- The sequence of match offsets the clearing scan visits, evaluated
against a fixed buffer (legitimate because the scan never modifies bytes
at or after its current position). -/
def greedyPosLoop (tgt buf : List α) : Nat → Nat → List Nat
  | 0, _ => []
  | fuel + 1, pos =>
    match findFrom buf tgt pos with
    | none => []
    | some i => i :: greedyPosLoop tgt buf fuel (i + tgt.length)

/-- Offsets of the greedy left-to-right non-overlapping occurrences of
`tgt` in `buf`: exactly the offsets the binary clearing scan overwrites. -/
def greedyPositions (tgt buf : List α) : List Nat :=
  greedyPosLoop tgt buf (buf.length + 1) 0

/-- Overwrite, for each offset in `ps`, the `len` positions starting
there with `c`. -/
def clearRanges (c : α) (len : Nat) (ps : List Nat) (buf : List α) : List α :=
  ps.foldl (fun b i => clearRange c i len b) buf

theorem greedyPosLoop_congr (tgt : List α) :
    ∀ (fuel : Nat) (buf buf' : List α) (pos : Nat), buf'.drop pos = buf.drop pos →
      greedyPosLoop tgt buf' fuel pos = greedyPosLoop tgt buf fuel pos := by
  intro fuel
  induction fuel with
  | zero => intro buf buf' pos h; rfl
  | succ fuel ih =>
    intro buf buf' pos h
    have hfind : findFrom buf' tgt pos = findFrom buf tgt pos := by
      simp [findFrom, h]
    cases hf : findFrom buf tgt pos with
    | none => simp only [greedyPosLoop, hfind, hf]
    | some i =>
      obtain ⟨hpos, -, -⟩ := findFrom_some hf
      have hdrop : buf'.drop (i + tgt.length) = buf.drop (i + tgt.length) := by
        have he : pos + (i + tgt.length - pos) = i + tgt.length := by omega
        rw [← he, ← List.drop_drop, ← List.drop_drop, h]
      simp only [greedyPosLoop, hfind, hf]
      rw [ih buf buf' (i + tgt.length) hdrop]

theorem clearLoop_eq_clearRanges (tgt : List α) (c : α) :
    ∀ (fuel : Nat) (buf : List α) (pos : Nat),
      clearLoop tgt c fuel buf pos =
        (clearRanges c tgt.length (greedyPosLoop tgt buf fuel pos) buf,
         - ((greedyPosLoop tgt buf fuel pos).length : Int)) := by
  intro fuel
  induction fuel with
  | zero => intro buf pos; rfl
  | succ fuel ih =>
    intro buf pos
    cases hf : findFrom buf tgt pos with
    | none => simp only [clearLoop, greedyPosLoop, hf]; rfl
    | some i =>
      obtain ⟨hpos, -, -⟩ := findFrom_some hf
      have hdrop : (clearRange c i tgt.length buf).drop (i + tgt.length) =
          buf.drop (i + tgt.length) := drop_clearRange (Nat.le_refl _)
      have hg : greedyPosLoop tgt (clearRange c i tgt.length buf) fuel (i + tgt.length) =
          greedyPosLoop tgt buf fuel (i + tgt.length) :=
        greedyPosLoop_congr tgt fuel buf _ (i + tgt.length) hdrop
      simp only [clearLoop, greedyPosLoop, hf]
      rw [ih (clearRange c i tgt.length buf) (i + tgt.length), hg]
      simp only [clearRanges, List.foldl_cons, List.length_cons, Prod.mk.injEq]
      refine ⟨trivial, ?_⟩
      push_cast
      ring

theorem greedyPosLoop_mem {tgt buf : List α} (htgt : tgt ≠ []) :
    ∀ (fuel pos p : Nat), p ∈ greedyPosLoop tgt buf fuel pos →
      pos ≤ p ∧ matchAt tgt (buf.drop p) = true ∧ p + tgt.length ≤ buf.length := by
  intro fuel
  induction fuel with
  | zero => intro pos p h; simp [greedyPosLoop] at h
  | succ fuel ih =>
    intro pos p h
    cases hf : findFrom buf tgt pos with
    | none => simp only [greedyPosLoop, hf] at h; simp at h
    | some i =>
      simp only [greedyPosLoop, hf, List.mem_cons] at h
      obtain ⟨hpos, hm, -⟩ := findFrom_some hf
      cases h with
      | inl h =>
        subst h
        exact ⟨hpos, hm, findFrom_some_bound htgt hf⟩
      | inr h =>
        obtain ⟨h1, h2, h3⟩ := ih (i + tgt.length) p h
        exact ⟨by omega, h2, h3⟩

theorem greedyPosLoop_sep {tgt buf : List α} (htgt : tgt ≠ []) :
    ∀ (fuel pos : Nat),
      List.Pairwise (fun a b => a + tgt.length ≤ b) (greedyPosLoop tgt buf fuel pos) := by
  intro fuel
  induction fuel with
  | zero => intro pos; simp [greedyPosLoop]
  | succ fuel ih =>
    intro pos
    cases hf : findFrom buf tgt pos with
    | none => simp [greedyPosLoop, hf]
    | some i =>
      simp only [greedyPosLoop, hf, List.pairwise_cons]
      refine ⟨?_, ih (i + tgt.length)⟩
      intro p hp
      exact (greedyPosLoop_mem htgt fuel (i + tgt.length) p hp).1

theorem greedyPosLoop_complete {tgt buf : List α} (htgt : tgt ≠ []) :
    ∀ (fuel pos j : Nat), buf.length + 1 ≤ fuel + pos → pos ≤ j →
      matchAt tgt (buf.drop j) = true →
      ∃ p ∈ greedyPosLoop tgt buf fuel pos, p ≤ j ∧ j < p + tgt.length := by
  have htlen : 1 ≤ tgt.length := by
    cases tgt with
    | nil => exact absurd rfl htgt
    | cons t ts => simp
  intro fuel
  induction fuel with
  | zero =>
    intro pos j hfuel hj hm
    have hdrop : buf.drop j = [] := List.drop_eq_nil_of_le (by omega)
    rw [hdrop] at hm
    have hlen := matchAt_length hm
    simp only [List.length_nil, Nat.le_zero] at hlen
    omega
  | succ fuel ih =>
    intro pos j hfuel hj hm
    cases hf : findFrom buf tgt pos with
    | none =>
      have := findFrom_none.mp hf j hj
      rw [this] at hm
      exact absurd hm (by simp)
    | some i =>
      obtain ⟨hpos, hmi, hmin⟩ := findFrom_some hf
      have hij : i ≤ j := by
        by_contra hlt
        have := hmin j hj (by omega)
        rw [this] at hm
        exact absurd hm (by simp)
      by_cases hcover : j < i + tgt.length
      · refine ⟨i, ?_, hij, hcover⟩
        simp [greedyPosLoop, hf]
      · have hbound := findFrom_some_bound htgt hf
        obtain ⟨p, hp, hple, hplt⟩ :=
          ih (i + tgt.length) j (by omega) (by omega) hm
        refine ⟨p, ?_, hple, hplt⟩
        simp [greedyPosLoop, hf, hp]

theorem length_clearRanges (c : α) (len : Nat) :
    ∀ (ps : List Nat) (buf : List α), (clearRanges c len ps buf).length = buf.length := by
  intro ps
  induction ps with
  | nil => intro buf; rfl
  | cons p ps ih =>
    intro buf
    simp only [clearRanges, List.foldl_cons]
    have h := ih (clearRange c p len buf)
    simp only [clearRanges] at h
    rw [h, length_clearRange]

theorem clearRanges_get?_outside (c : α) (len : Nat) :
    ∀ (ps : List Nat) (buf : List α) (k : Nat),
      (∀ p ∈ ps, ¬(p ≤ k ∧ k < p + len)) →
      (clearRanges c len ps buf).get? k = buf.get? k := by
  intro ps
  induction ps with
  | nil => intro buf k h; rfl
  | cons p ps ih =>
    intro buf k h
    simp only [clearRanges, List.foldl_cons]
    have h2 := ih (clearRange c p len buf) k (fun q hq => h q (List.mem_cons_of_mem p hq))
    simp only [clearRanges] at h2
    rw [h2, get?_clearRange]
    have hc : ¬(p ≤ k ∧ k < p + len ∧ k < buf.length) := by
      intro hx
      exact h p (List.mem_cons_self p ps) ⟨hx.1, hx.2.1⟩
    simp [hc]

theorem clearRanges_get?_inside (c : α) (len : Nat) :
    ∀ (ps : List Nat) (buf : List α) (k : Nat),
      (∃ p ∈ ps, p ≤ k ∧ k < p + len) → k < buf.length →
      (clearRanges c len ps buf).get? k = some c := by
  intro ps
  induction ps with
  | nil => intro buf k h; simp at h
  | cons p ps ih =>
    intro buf k h hk
    simp only [clearRanges, List.foldl_cons]
    by_cases hrest : ∃ q ∈ ps, q ≤ k ∧ k < q + len
    · have h2 := ih (clearRange c p len buf) k hrest (by rw [length_clearRange]; exact hk)
      simpa only [clearRanges] using h2
    · obtain ⟨q, hq, hqk⟩ := h
      have hqp : q = p := by
        rcases List.mem_cons.mp hq with h1 | h1
        · exact h1
        · exact absurd ⟨q, h1, hqk⟩ hrest
      subst hqp
      have h2 := clearRanges_get?_outside c len ps (clearRange c q len buf) k
        (fun r hr hx => hrest ⟨r, hr, hx⟩)
      simp only [clearRanges] at h2
      rw [h2, get?_clearRange]
      simp [hqk.1, hqk.2, hk]

theorem clearRanges_get?_or (c : α) (len : Nat) :
    ∀ (ps : List Nat) (buf : List α) (k : Nat),
      (clearRanges c len ps buf).get? k = buf.get? k ∨
        (clearRanges c len ps buf).get? k = some c := by
  intro ps
  induction ps with
  | nil => intro buf k; left; rfl
  | cons p ps ih =>
    intro buf k
    simp only [clearRanges, List.foldl_cons]
    have h2 := ih (clearRange c p len buf) k
    simp only [clearRanges] at h2
    rcases h2 with h2 | h2
    · rw [h2, get?_clearRange]
      by_cases hc : p ≤ k ∧ k < p + len ∧ k < buf.length
      · right; simp [hc]
      · left; simp [hc]
    · right; exact h2

theorem matchAt_nil_false {tgt : List α} (htgt : tgt ≠ []) : matchAt tgt ([] : List α) = false := by
  cases tgt with
  | nil => exact absurd rfl htgt
  | cons t ts => rfl

theorem process_binary_pass_eq (buf tgt : List α) (c : α) :
    process_binary_pass buf tgt c =
      (clearRanges c tgt.length (greedyPositions tgt buf) buf,
       - ((greedyPositions tgt buf).length : Int)) :=
  clearLoop_eq_clearRanges tgt c (buf.length + 1) buf 0

theorem length_process_binary_pass (buf tgt : List α) (c : α) :
    (process_binary_pass buf tgt c).1.length = buf.length := by
  rw [process_binary_pass_eq]
  exact length_clearRanges c tgt.length (greedyPositions tgt buf) buf

/-- A buffer with no occurrence of the target is returned unchanged with
count 0 by the clearing scan. -/
theorem pass_of_no_match {tgt buf : List α} {c : α}
    (hno : ∀ j, matchAt tgt (buf.drop j) = false) :
    process_binary_pass buf tgt c = (buf, 0) := by
  have hfind : findFrom buf tgt 0 = none :=
    findFrom_none.mpr (fun j _ => hno j)
  simp [process_binary_pass, clearLoop, hfind]

/-- Core loop-guard style invariant for binary clearing: if the clear
element does not occur in the (non-empty) target, the scan's output
contains no occurrence of the target at all. -/
theorem clearLoop_no_match {tgt : List α} {c : α} (htgt : tgt ≠ []) (hc : c ∉ tgt) :
    ∀ (fuel : Nat) (buf : List α) (pos : Nat), buf.length + 1 ≤ fuel + pos →
      (∀ j, j < pos → matchAt tgt (buf.drop j) = false) →
      ∀ j, matchAt tgt (((clearLoop tgt c fuel buf pos).1).drop j) = false := by
  have htlen : 1 ≤ tgt.length := by
    cases tgt with
    | nil => exact absurd rfl htgt
    | cons t ts => simp
  intro fuel
  induction fuel with
  | zero =>
    intro buf pos hfuel hinv j
    simp only [clearLoop]
    by_cases hj : j < pos
    · exact hinv j hj
    · rw [List.drop_eq_nil_of_le (by omega)]
      exact matchAt_nil_false htgt
  | succ fuel ih =>
    intro buf pos hfuel hinv j
    cases hf : findFrom buf tgt pos with
    | none =>
      simp only [clearLoop, hf]
      by_cases hj : j < pos
      · exact hinv j hj
      · exact findFrom_none.mp hf j (by omega)
    | some i =>
      obtain ⟨hpos, hmi, hmin⟩ := findFrom_some hf
      have hbound := findFrom_some_bound htgt hf
      simp only [clearLoop, hf]
      have hlen2 : (clearRange c i tgt.length buf).length = buf.length :=
        length_clearRange c i tgt.length buf
      apply ih (clearRange c i tgt.length buf) (i + tgt.length) (by omega)
      intro k hk
      -- the cleared buffer has no occurrence of the target below the new position
      by_cases hbefore : k + tgt.length ≤ i
      · -- window untouched by the clearing: reduce to a match in the old buffer
        have hfalse : matchAt tgt (buf.drop k) = false := by
          by_cases hkpos : k < pos
          · exact hinv k hkpos
          · exact hmin k (by omega) (by omega)
        by_cases hmk : matchAt tgt ((clearRange c i tgt.length buf).drop k) = true
        · exfalso
          obtain ⟨hl, hall⟩ := matchAt_iff.mp hmk
          have hmatch : matchAt tgt (buf.drop k) = true := by
            apply matchAt_iff.mpr
            constructor
            · rwa [List.length_drop, ← hlen2, ← List.length_drop]
            · intro m hm
              have h1 := hall m hm
              rw [List.get?_drop, get?_clearRange] at h1
              rw [List.get?_drop]
              have hcnot : ¬(i ≤ k + m ∧ k + m < i + tgt.length ∧ k + m < buf.length) := by
                omega
              simpa [hcnot] using h1
          rw [hmatch] at hfalse
          exact absurd hfalse (by simp)
        · exact (Bool.not_eq_true _).mp hmk
      · -- window overlaps the freshly cleared run: a cleared position would
        -- have to carry the clear element inside the target
        by_cases hmk : matchAt tgt ((clearRange c i tgt.length buf).drop k) = true
        · exfalso
          obtain ⟨hl, hall⟩ := matchAt_iff.mp hmk
          have hm1 : max i k < i + tgt.length := by omega
          have hm2 : max i k - k < tgt.length := by omega
          have h1 := hall (max i k - k) hm2
          rw [List.get?_drop, get?_clearRange] at h1
          have hkm : k + (max i k - k) = max i k := by omega
          rw [hkm] at h1
          have hcyes : i ≤ max i k ∧ max i k < i + tgt.length ∧ max i k < buf.length := by
            omega
          simp only [hcyes, and_self, if_true] at h1
          exact hc (List.get?_mem h1.symm)
        · exact (Bool.not_eq_true _).mp hmk

theorem process_binary_pass_no_match {tgt buf : List α} {c : α}
    (htgt : tgt ≠ []) (hc : c ∉ tgt) :
    ∀ j, matchAt tgt (((process_binary_pass buf tgt c).1).drop j) = false :=
  clearLoop_no_match htgt hc (buf.length + 1) buf 0 (by omega) (by omega)

/-- A pass for another target only overwrites positions with the clear
element, so it cannot create an occurrence of a target that avoids the
clear element. -/
theorem pass_preserves_no_match {t : List α} {c : α} (hc : c ∉ t)
    (buf t' : List α) (hno : ∀ j, matchAt t (buf.drop j) = false) :
    ∀ j, matchAt t (((process_binary_pass buf t' c).1).drop j) = false := by
  intro j
  rw [process_binary_pass_eq]
  by_cases hmk : matchAt t ((clearRanges c t'.length (greedyPositions t' buf) buf).drop j) = true
  · exfalso
    obtain ⟨hl, hall⟩ := matchAt_iff.mp hmk
    have hlen2 : (clearRanges c t'.length (greedyPositions t' buf) buf).length = buf.length :=
      length_clearRanges c t'.length (greedyPositions t' buf) buf
    have hmatch : matchAt t (buf.drop j) = true := by
      apply matchAt_iff.mpr
      constructor
      · rwa [List.length_drop, ← hlen2, ← List.length_drop]
      · intro m hm
        have h1 := hall m hm
        rw [List.get?_drop] at h1
        rw [List.get?_drop]
        rcases clearRanges_get?_or c t'.length (greedyPositions t' buf) buf (j + m) with h2 | h2
        · rw [h2] at h1
          exact h1
        · rw [h2] at h1
          exact absurd (List.get?_mem h1.symm) hc
    rw [hno j] at hmatch
    exact absurd hmatch (by simp)
  · exact (Bool.not_eq_true _).mp hmk

theorem process_binary_all_preserves_no_match {t : List α} {c : α} (hc : c ∉ t) :
    ∀ (tgts : List (List α)) (buf : List α),
      (∀ j, matchAt t (buf.drop j) = false) →
      ∀ j, matchAt t (((process_binary_all c buf tgts).1).drop j) = false := by
  intro tgts
  induction tgts with
  | nil => intro buf hno j; exact hno j
  | cons t0 ts ih =>
    intro buf hno j
    simp only [process_binary_all]
    exact ih (process_binary_pass buf t0 c).1 (pass_preserves_no_match hc buf t0 hno) j

theorem process_binary_all_no_match {c : α} :
    ∀ (tgts : List (List α)) (buf : List α),
      (∀ t ∈ tgts, t ≠ []) → (∀ t ∈ tgts, c ∉ t) →
      ∀ t ∈ tgts, ∀ j, matchAt t (((process_binary_all c buf tgts).1).drop j) = false := by
  intro tgts
  induction tgts with
  | nil => intro buf h1 h2 t ht; simp at ht
  | cons t0 ts ih =>
    intro buf h1 h2 t ht
    simp only [process_binary_all]
    rcases List.mem_cons.mp ht with rfl | hts
    · intro j
      exact process_binary_all_preserves_no_match (h2 t (List.mem_cons_self t ts))
        ts (process_binary_pass buf t c).1
        (process_binary_pass_no_match (h1 t (List.mem_cons_self t ts))
          (h2 t (List.mem_cons_self t ts))) j
    · exact ih (process_binary_pass buf t0 c).1
        (fun u hu => h1 u (List.mem_cons_of_mem t0 hu))
        (fun u hu => h2 u (List.mem_cons_of_mem t0 hu)) t hts

theorem process_binary_all_of_no_match {c : α} :
    ∀ (tgts : List (List α)) (buf : List α),
      (∀ t ∈ tgts, ∀ j, matchAt t (buf.drop j) = false) →
      process_binary_all c buf tgts = (buf, 0) := by
  intro tgts
  induction tgts with
  | nil => intro buf hno; rfl
  | cons t0 ts ih =>
    intro buf hno
    have hp : process_binary_pass buf t0 c = (buf, 0) :=
      pass_of_no_match (hno t0 (List.mem_cons_self t0 ts))
    simp only [process_binary_all, hp]
    have h2 := ih buf (fun u hu => hno u (List.mem_cons_of_mem t0 hu))
    rw [h2]
    simp

/-- The replacement while-loop of `process_text` (strclear.cpp:206-211)
for one target: `std::string::find` from the current position, splice in
the replacement, advance past the inserted replacement, and bump the
count by `rincr` (+1 for a non-empty replacement, -1 for an empty one,
strclear.cpp:201).  `fuel` bounds the iteration count; for a non-empty
target `content.length + 1` always suffices, because every iteration
strictly shrinks `content.length - pos`. -/
def replaceLoop (tgt repl : List α) : Nat → List α → Nat → List α × Int
  | 0, content, _ => (content, 0)
  | fuel + 1, content, pos =>
    match findFrom content tgt pos with
    | none => (content, 0)
    | some i =>
      let r := replaceLoop tgt repl fuel
        (content.take i ++ repl ++ content.drop (i + tgt.length)) (i + repl.length)
      (r.1, r.2 + (if repl.length ≠ 0 then 1 else -1))

/-- One target's replacement pass over the whole content. -/
def process_text_pass (content tgt repl : List α) : List α × Int :=
  replaceLoop tgt repl (content.length + 1) content 0

/-- The in-memory part of `process_text` (strclear.cpp:197-212): iterate
the replacement pass over all target strings in order, accumulating the
signed change count. -/
def process_text_all (repl : List α) : List α → List (List α) → List α × Int
  | content, [] => (content, 0)
  | content, t :: ts =>
    let r := process_text_pass content t repl
    let r2 := process_text_all repl r.1 ts
    (r2.1, r.2 + r2.2)

theorem splice_length {content tgt : List α} (repl : List α) {i : Nat}
    (h : i + tgt.length ≤ content.length) :
    (content.take i ++ repl ++ content.drop (i + tgt.length)).length =
      content.length + repl.length - tgt.length := by
  simp only [List.length_append, List.length_take, List.length_drop]
  omega

theorem replaceLoop_of_big_pos {tgt repl : List α} (htgt : tgt ≠ []) :
    ∀ (fuel : Nat) (content : List α) (pos : Nat), content.length + 1 ≤ pos →
      replaceLoop tgt repl fuel content pos = (content, 0) := by
  intro fuel content pos hpos
  cases fuel with
  | zero => rfl
  | succ fuel =>
    have hfind : findFrom content tgt pos = none := by
      apply findFrom_none.mpr
      intro j hj
      rw [List.drop_eq_nil_of_le (by omega)]
      exact matchAt_nil_false htgt
    simp [replaceLoop, hfind]

/-- Fuel irrelevance: any fuel of at least `content.length + 1 - pos`
gives the same result, i.e. the replacement loop terminates within that
many iterations for a non-empty target. -/
theorem replaceLoop_fuel {tgt repl : List α} (htgt : tgt ≠ []) :
    ∀ (fuel fuel' : Nat) (content : List α) (pos : Nat),
      content.length + 1 ≤ fuel + pos → content.length + 1 ≤ fuel' + pos →
      replaceLoop tgt repl fuel content pos = replaceLoop tgt repl fuel' content pos := by
  have htlen : 1 ≤ tgt.length := by
    cases tgt with
    | nil => exact absurd rfl htgt
    | cons t ts => simp
  intro fuel
  induction fuel with
  | zero =>
    intro fuel' content pos hfuel hfuel'
    rw [replaceLoop_of_big_pos htgt fuel' content pos (by omega)]
    rfl
  | succ fuel ih =>
    intro fuel' content pos hfuel hfuel'
    by_cases hpos : content.length + 1 ≤ pos
    · rw [replaceLoop_of_big_pos htgt _ content pos hpos,
        replaceLoop_of_big_pos htgt fuel' content pos hpos]
    · cases fuel' with
      | zero => omega
      | succ fuel' =>
        cases hf : findFrom content tgt pos with
        | none => simp only [replaceLoop, hf]
        | some i =>
          obtain ⟨hple, -, -⟩ := findFrom_some hf
          have hbound := findFrom_some_bound htgt hf
          have hlen2 := splice_length repl hbound
          simp only [replaceLoop, hf]
          rw [ih fuel' (content.take i ++ repl ++ content.drop (i + tgt.length))
            (i + repl.length) (by omega) (by omega)]

/-- Outcome of processing one file: `completed` means the worker
function returned normally with the given change count, `exitProcess`
means the whole process was terminated via `exit`.  `disk` is the file's
on-disk content afterwards. -/
inductive FileOutcome (α : Type) where
  | completed (count : Int) (disk : List α)
  | exitProcess (code : Int) (disk : List α)
deriving DecidableEq

/-- `process_text` (strclear.cpp:178-226) with its filesystem
interactions abstracted: `openOk` is whether the input stream opened,
`content` the text read, `writeOk` whether the output stream opened for
rewriting.  On open failure it returns count 0; on empty content, count
0; if no changes were made, count 0 without touching the file; on write
failure after a successful in-memory scrub it calls `exit(-1)`
(strclear.cpp:221). -/
def process_text_file (openOk : Bool) (content : List α) (writeOk : Bool)
    (tgts : List (List α)) (repl : List α) : FileOutcome α :=
  if !openOk then .completed 0 content
  else if content.length = 0 then .completed 0 content
  else
    let r := process_text_all repl content tgts
    if r.2 = 0 then .completed 0 content
    else if writeOk then .completed r.2 r.1
    else .exitProcess (-1) content

/-- `process_binary` (strclear.cpp:128-176) with its filesystem
interactions abstracted.  On open failure it returns count 0; if no
changes, count 0 without touching the file; on write failure it prints
an error and still returns the count, leaving the old content on disk
(strclear.cpp:167-169) — it never exits. -/
def process_binary_file (openOk : Bool) (buf : List α) (writeOk : Bool)
    (tgts : List (List α)) (c : α) : FileOutcome α :=
  if !openOk then .completed 0 buf
  else
    let r := process_binary_all c buf tgts
    if r.2 = 0 then .completed 0 buf
    else if writeOk then .completed r.2 r.1
    else .completed r.2 buf

/-- The tally value one worker records for one file
(strclear.cpp:295-309).  `openOk` is whether the pre-classification open
of the file succeeded; on failure the worker prints an error and records
`op_tally[fname] = 0` (strclear.cpp:297-298).  `binary_mode` is the
classifier's verdict, and `binResult`/`txtResult` stand for the values
returned by `process_binary`/`process_text` on this file. -/
def worker_tally (openOk binary_mode text_only binary_only : Bool)
    (binResult txtResult : Int) : Int :=
  if !openOk then 0
  else
    let r1 : Int := 0
    let r2 := if binary_mode && !text_only then binResult else r1
    let r3 := if !binary_mode && !binary_only then txtResult else r2
    r3

/-- One line of the verbose per-file tally (strclear.cpp:501-508).
`cleared p n` renders as `<p>:  cleared <n> instances` (with
`n = -1 * count`), `replaced p n` renders as
`<p>: replaced <n> instances`. -/
inductive ReportLine where
  | cleared (path : List Char) (n : Int)
  | replaced (path : List Char) (n : Int)
deriving DecidableEq

/-- The line printed for one tally entry (strclear.cpp:502-507):
negative counts print as cleared, all other counts (zero included) print
as replaced. -/
def tally_line (e : List Char × Int) : ReportLine :=
  if e.2 < 0 then .cleared e.1 (-1 * e.2) else .replaced e.1 e.2

/-- The per-file portion of the verbose report (strclear.cpp:463-511):
the `did_op` scan prints nothing per-file unless some entry is non-zero,
and otherwise prints one line for every tally entry. -/
def report_lines (tally : List (List Char × Int)) : List ReportLine :=
  if tally.any (fun e => decide (e.2 ≠ 0)) then tally.map tally_line else []

/-- `std::string` lexicographic greater-than, used as the sort
tie-break in `expand_path_forms` (strclear.cpp:121). -/
def strGtCpp : List Char → List Char → Bool
  | [], _ => false
  | _ :: _, [] => true
  | a :: as, b :: bs =>
    if a.toNat > b.toNat then true
    else if b.toNat > a.toNat then false
    else strGtCpp as bs

/-- The comparator handed to `std::sort` in `expand_path_forms`
(strclear.cpp:117-123): longer strings first, ties broken by
lexicographically descending order. -/
def formBefore (a b : List Char) : Bool :=
  if a.length ≠ b.length then decide (a.length > b.length) else strGtCpp a b

def insertForm (x : List Char) : List (List Char) → List (List Char)
  | [] => [x]
  | y :: ys => if formBefore x y then x :: y :: ys else y :: insertForm x ys

/-- Sorting by `formBefore`.  The comparator is a strict weak order whose
incomparability is equality, so the sorted sequence is unique and
insertion sort models `std::sort` exactly. -/
def sortForms : List (List Char) → List (List Char)
  | [] => []
  | x :: xs => insertForm x (sortForms xs)

/-- The `forms` vector after the absolute-form push of
`expand_path_forms` (strclear.cpp:92-100): the original, then the
absolute form if non-empty and distinct from the original. -/
def formsAfterAbs (input absf : List Char) : List (List Char) :=
  if absf.length ≠ 0 ∧ absf ≠ input then [input] ++ [absf] else [input]

/-- The `forms` vector after the canonical-form push
(strclear.cpp:102-105); `canonv` is the string `fs::canonical` produced
(empty when it failed, i.e. when `canonOk` is false). -/
def formsAfterCanon (input absf : List Char) (canonOk : Bool) (canonv : List Char) :
    List (List Char) :=
  if canonOk ∧ canonv.length ≠ 0 ∧ canonv ≠ input ∧ canonv ≠ absf
    then formsAfterAbs input absf ++ [canonv] else formsAfterAbs input absf

/-- The `forms` vector after the lexically-normalized-form push
(strclear.cpp:107-109). -/
def formsAfterNorm (input absf : List Char) (canonOk : Bool) (canonv normf : List Char) :
    List (List Char) :=
  if normf.length ≠ 0 ∧ normf ≠ input ∧ normf ≠ absf ∧ normf ≠ canonv
    then formsAfterCanon input absf canonOk canonv ++ [normf]
    else formsAfterCanon input absf canonOk canonv

/-- The form-collection phase of `expand_path_forms`
(strclear.cpp:87-113), with the filesystem queries as oracle inputs:
`pexists` for `fs::exists(p) && (regular || symlink || directory)`,
`absf` for `fs::absolute(p).string()`, `canonOk`/`canonf` for
`fs::canonical(p, ec)` (which yields the empty path with `ec` set on
failure), and `normf` for `p.lexically_normal().string()`. -/
def collect_path_forms (input : List Char) (pexists : Bool) (absf : List Char)
    (canonOk : Bool) (canonf : List Char) (normf : List Char) : List (List Char) :=
  if pexists then
    formsAfterNorm input absf canonOk (if canonOk then canonf else []) normf
  else [input]

/-- `expand_path_forms` (strclear.cpp:84-126): empty input yields no
forms; otherwise the collected forms, sorted longest-first with
lexicographically-descending tie-break. -/
def expand_path_forms (input : List Char) (pexists : Bool) (absf : List Char)
    (canonOk : Bool) (canonf : List Char) (normf : List Char) : List (List Char) :=
  if input.length = 0 then []
  else sortForms (collect_path_forms input pexists absf canonOk canonf normf)

theorem char_eq_of_toNat_eq {a b : Char} (h : a.toNat = b.toNat) : a = b := by
  have hv : a.val.toNat = b.val.toNat := h
  exact Char.ext (UInt32.toNat.inj hv)

theorem strGtCpp_asymm : ∀ a b : List Char, strGtCpp a b = true → strGtCpp b a = false := by
  intro a
  induction a with
  | nil => intro b h; simp [strGtCpp] at h
  | cons x xs ih =>
    intro b h
    cases b with
    | nil => rfl
    | cons y ys =>
      simp only [strGtCpp] at h ⊢
      by_cases h1 : x.toNat > y.toNat
      · simp only [if_pos h1] at h
        have h2 : ¬(y.toNat > x.toNat) := by omega
        simp [h2, h1]
      · simp only [if_neg h1] at h
        by_cases h2 : y.toNat > x.toNat
        · simp [if_pos h2] at h
        · simp only [if_neg h2] at h
          simp [h1, h2, ih ys h]

theorem strGtCpp_trichotomy : ∀ a b : List Char,
    a = b ∨ strGtCpp a b = true ∨ strGtCpp b a = true := by
  intro a
  induction a with
  | nil =>
    intro b
    cases b with
    | nil => left; rfl
    | cons y ys => right; right; rfl
  | cons x xs ih =>
    intro b
    cases b with
    | nil => right; left; rfl
    | cons y ys =>
      by_cases h1 : x.toNat > y.toNat
      · right; left; simp [strGtCpp, h1]
      · by_cases h2 : y.toNat > x.toNat
        · right; right; simp [strGtCpp, h2]
        · have hxy : x = y := char_eq_of_toNat_eq (by omega)
          subst hxy
          rcases ih ys with h | h | h
          · left; rw [h]
          · right; left; simpa [strGtCpp, h1, h2] using h
          · right; right; simpa [strGtCpp, h1, h2] using h

theorem strGtCpp_trans : ∀ a b c : List Char,
    strGtCpp a b = true → strGtCpp b c = true → strGtCpp a c = true := by
  intro a
  induction a with
  | nil => intro b c h; simp [strGtCpp] at h
  | cons x xs ih =>
    intro b c hab hbc
    cases b with
    | nil => simp [strGtCpp] at hbc
    | cons y ys =>
      cases c with
      | nil => rfl
      | cons z zs =>
        simp only [strGtCpp] at hab hbc ⊢
        by_cases h1 : x.toNat > y.toNat
        · by_cases h2 : y.toNat > z.toNat
          · have : x.toNat > z.toNat := by omega
            simp [this]
          · simp only [if_neg h2] at hbc
            by_cases h3 : z.toNat > y.toNat
            · simp [if_pos h3] at hbc
            · have hyz : y.toNat = z.toNat := by omega
              have : x.toNat > z.toNat := by omega
              simp [this]
        · simp only [if_neg h1] at hab
          by_cases h2 : y.toNat > x.toNat
          · simp [if_pos h2] at hab
          · have hxy : x.toNat = y.toNat := by omega
            by_cases h3 : y.toNat > z.toNat
            · have : x.toNat > z.toNat := by omega
              simp [this]
            · simp only [if_neg h3] at hbc
              by_cases h4 : z.toNat > y.toNat
              · simp [if_pos h4] at hbc
              · have h5 : ¬(x.toNat > z.toNat) := by omega
                have h6 : ¬(z.toNat > x.toNat) := by omega
                simp only [if_neg h2] at hab
                simp only [if_neg h4] at hbc
                simp only [if_neg h5, if_neg h6]
                exact ih ys zs hab hbc

theorem formBefore_false_iff {a b : List Char} :
    formBefore a b = false ↔
      (a.length < b.length ∨ (a.length = b.length ∧ strGtCpp a b = false)) := by
  unfold formBefore
  by_cases h : a.length ≠ b.length
  · simp only [if_pos h]
    constructor
    · intro h2
      left
      simp only [decide_eq_false_iff_not] at h2
      omega
    · intro h2
      rcases h2 with h2 | h2
      · simp only [decide_eq_false_iff_not]
        omega
      · omega
  · simp only [if_neg h]
    push_neg at h
    constructor
    · intro h2; right; exact ⟨h, h2⟩
    · intro h2
      rcases h2 with h2 | h2
      · omega
      · exact h2.2

theorem formBefore_asymm {a b : List Char} (h : formBefore a b = true) :
    formBefore b a = false := by
  unfold formBefore at h
  rw [formBefore_false_iff]
  by_cases h1 : a.length ≠ b.length
  · simp only [if_pos h1, decide_eq_true_eq] at h
    left; omega
  · simp only [if_neg h1] at h
    push_neg at h1
    right
    exact ⟨h1.symm, strGtCpp_asymm a b h⟩

theorem formBefore_order_trans {a b c : List Char}
    (h1 : formBefore b a = false) (h2 : formBefore c b = false) :
    formBefore c a = false := by
  rw [formBefore_false_iff] at h1 h2 ⊢
  rcases h1 with h1 | ⟨h1e, h1g⟩
  · rcases h2 with h2 | ⟨h2e, h2g⟩
    · left; omega
    · left; omega
  · rcases h2 with h2 | ⟨h2e, h2g⟩
    · left; omega
    · right
      refine ⟨by omega, ?_⟩
      by_cases hca : strGtCpp c a = true
      · exfalso
        rcases strGtCpp_trichotomy c b with hcb | hcb | hcb
        · subst hcb
          rw [hca] at h1g
          exact absurd h1g (by simp)
        · rw [hcb] at h2g
          exact absurd h2g (by simp)
        · rcases strGtCpp_trichotomy b a with hba | hba | hba
          · subst hba
            rw [hca] at h2g
            exact absurd h2g (by simp)
          · rw [hba] at h1g
            exact absurd h1g (by simp)
          · have := strGtCpp_trans c a b hca hba
            rw [this] at h2g
            exact absurd h2g (by simp)
      · exact (Bool.not_eq_true _).mp hca

theorem insertForm_perm (x : List Char) :
    ∀ l : List (List Char), List.Perm (insertForm x l) (x :: l) := by
  intro l
  induction l with
  | nil => exact List.Perm.refl _
  | cons y ys ih =>
    simp only [insertForm]
    by_cases h : formBefore x y = true
    · simp only [if_pos h]
      exact List.Perm.refl _
    · simp only [if_neg h]
      exact (List.Perm.cons y ih).trans (List.Perm.swap x y ys)

theorem sortForms_perm : ∀ l : List (List Char), List.Perm (sortForms l) l := by
  intro l
  induction l with
  | nil => exact List.Perm.refl _
  | cons x xs ih =>
    exact (insertForm_perm x (sortForms xs)).trans (List.Perm.cons x ih)

theorem mem_insertForm {z x : List Char} {l : List (List Char)} :
    z ∈ insertForm x l ↔ z = x ∨ z ∈ l := by
  rw [(insertForm_perm x l).mem_iff]
  simp

theorem insertForm_pairwise {x : List Char} {l : List (List Char)}
    (h : List.Pairwise (fun a b => formBefore b a = false) l) :
    List.Pairwise (fun a b => formBefore b a = false) (insertForm x l) := by
  induction l with
  | nil => simp [insertForm]
  | cons y ys ih =>
    simp only [insertForm]
    rcases List.pairwise_cons.mp h with ⟨hy, hys⟩
    by_cases hxy : formBefore x y = true
    · simp only [if_pos hxy]
      rw [List.pairwise_cons]
      constructor
      · intro z hz
        rcases List.mem_cons.mp hz with rfl | hz
        · exact formBefore_asymm hxy
        · exact formBefore_order_trans (formBefore_asymm hxy) (hy z hz)
      · exact h
    · simp only [if_neg hxy]
      rw [List.pairwise_cons]
      constructor
      · intro z hz
        rcases mem_insertForm.mp hz with rfl | hz
        · exact (Bool.not_eq_true _).mp hxy
        · exact hy z hz
      · exact ih hys

theorem sortForms_pairwise : ∀ l : List (List Char),
    List.Pairwise (fun a b => formBefore b a = false) (sortForms l) := by
  intro l
  induction l with
  | nil => simp [sortForms]
  | cons x xs ih => exact insertForm_pairwise ih

/-- The replacement scan from an arbitrary position, with its canonical
fuel (`content.length + 1` iterations always suffice for a non-empty
target, by `replaceLoop_fuel`). -/
def textScanFrom (content tgt repl : List α) (pos : Nat) : List α × Int :=
  replaceLoop tgt repl (content.length + 1) content pos

theorem length_process_binary_all (c : α) :
    ∀ (tgts : List (List α)) (buf : List α),
      ((process_binary_all c buf tgts).1).length = buf.length := by
  intro tgts
  induction tgts with
  | nil => intro buf; rfl
  | cons t ts ih =>
    intro buf
    simp only [process_binary_all]
    rw [ih (process_binary_pass buf t c).1, length_process_binary_pass]

/-- C1, counterexample: content `"a"`, target `"a"`, replacement
`"aa"` — the replacement is non-empty and contains the target, yet the
text scrub does not reject the file: it completes, returns the numeric
count 1, and rewrites the file to `"aa"`. -/
theorem C1_counterexample :
    firstMatch ['a'] ['a', 'a'] = some 0 ∧
    process_text_file true ['a'] true [['a']] ['a', 'a'] =
      FileOutcome.completed 1 ['a', 'a'] ∧
    (['a', 'a'] : List Char) ≠ ['a'] := by
  refine ⟨by decide, by decide, by decide⟩

/-- C1, amended: `process_text` has no loop-guard pre-check.  Even when
the non-empty replacement contains a (non-empty) target string as a
substring, the file is scrubbed by the ordinary algorithm, and the scan
still terminates — any fuel of at least `content.length + 1` iterations
yields the same completed result — because scanning resumes strictly
after each inserted replacement and never re-scans inserted text. -/
theorem C1_amended_no_loop_guard (content tgt repl : List Char) (fuel : Nat)
    (htgt : tgt ≠ []) (hrepl : repl ≠ []) (hcontains : firstMatch tgt repl ≠ none)
    (hfuel : content.length + 1 ≤ fuel) :
    replaceLoop tgt repl fuel content 0 = process_text_pass content tgt repl :=
  replaceLoop_fuel htgt fuel (content.length + 1) content 0 (by omega) (by omega)

theorem C1_witness :
    replaceLoop ['a'] ['a', 'a'] 5 ['a'] 0 = process_text_pass ['a'] ['a'] ['a', 'a'] :=
  C1_amended_no_loop_guard ['a'] ['a'] ['a', 'a'] 5 (by decide) (by decide)
    (by decide) (by decide)

/-- C2, counterexample: a text file whose mutated content cannot be
persisted (`writeOk = false` after a successful in-memory scrub) makes
`process_text` call `exit(-1)` (strclear.cpp:221), terminating the whole
run instead of recording a per-file error and continuing. -/
theorem C2_counterexample :
    process_text_file true ['a'] false [['a']] ([] : List Char) =
      FileOutcome.exitProcess (-1) ['a'] := by
  decide

/-- C2, amended: the two scrubbers disagree on write failure.
`process_binary` never terminates the process — every outcome is
`completed` (on write failure it reports the error, leaves the old
content, and returns the count, so processing of other files
continues).  `process_text`, however, reacts to a write failure after a
successful in-memory scrub by exiting the whole process with code -1. -/
theorem C2_amended_write_failure :
    (∀ (openOk : Bool) (buf : List Nat) (writeOk : Bool) (tgts : List (List Nat))
       (c : Nat) (code : Int) (disk : List Nat),
       process_binary_file openOk buf writeOk tgts c ≠
         FileOutcome.exitProcess code disk) ∧
    (∀ (content : List Char) (tgts : List (List Char)) (repl : List Char),
       content.length ≠ 0 → (process_text_all repl content tgts).2 ≠ 0 →
       process_text_file true content false tgts repl =
         FileOutcome.exitProcess (-1) content) := by
  constructor
  · intro openOk buf writeOk tgts c code disk
    unfold process_binary_file
    by_cases hz : (process_binary_all c buf tgts).2 = 0 <;> split_ifs <;> simp_all
  · intro content tgts repl hlen hcnt
    unfold process_text_file
    simp [hlen, hcnt]

theorem C2_witness :
    process_text_file true ['a'] false [['a']] ([] : List Char) =
      FileOutcome.exitProcess (-1) ['a'] :=
  C2_amended_write_failure.2 ['a'] [['a']] [] (by decide) (by decide)

/-- C3, counterexample: a file that cannot be opened is recorded in the
tally as the numeric 0 (strclear.cpp:298) — exactly the value recorded
for a file that was opened and scrubbed with no matches — so a Ledger
value of zero does not imply the file was opened and scrubbed. -/
theorem C3_counterexample :
    worker_tally false true false false 5 7 = 0 ∧
    process_text_all ([] : List Char) ['b'] [['a']] = (['b'], 0) ∧
    worker_tally true false false false 0
      (process_text_all ([] : List Char) ['b'] [['a']]).2 = 0 := by
  refine ⟨by decide, by decide, by decide⟩

/-- C3, amended: on open failure the worker prints an error to stderr
but records the plain numeric zero in the tally — the same value a
matched-nothing file records — regardless of mode flags or of what the
scrubbers would have returned; no distinct error marker exists. -/
theorem C3_amended_open_failure_zero :
    ∀ (binary_mode text_only binary_only : Bool) (binResult txtResult : Int),
      worker_tally false binary_mode text_only binary_only binResult txtResult = 0 := by
  intro binary_mode text_only binary_only binResult txtResult
  rfl

/-- C9, counterexample: with tally entries `f ↦ -1` and `g ↦ 0`, the
verbose report prints a line for the zero-count file `g` as well
(`g: replaced 0 instances`), contradicting the claim that zero-count
files produce no line. -/
theorem C9_counterexample :
    report_lines [(['f'], -1), (['g'], 0)] =
      [ReportLine.cleared ['f'] 1, ReportLine.replaced ['g'] 0] := by
  decide

/-- C9, amended: the verbose per-file report prints no per-file line
when every entry is zero, but as soon as any entry is non-zero it prints
one line for every tally entry — including zero entries, which print as
`replaced 0 instances`; negative entries print as cleared with the sign
flipped, all other entries print as replaced. -/
theorem C9_amended_report_all_entries :
    (∀ (tally : List (List Char × Int)) (e : List Char × Int), e ∈ tally →
       (∃ e2 ∈ tally, e2.2 ≠ 0) → tally_line e ∈ report_lines tally) ∧
    (∀ tally : List (List Char × Int), (∀ e ∈ tally, e.2 = 0) →
       report_lines tally = []) ∧
    (∀ (p : List Char) (n : Int), n < 0 →
       tally_line (p, n) = ReportLine.cleared p (-1 * n)) ∧
    (∀ (p : List Char) (n : Int), 0 ≤ n → tally_line (p, n) = ReportLine.replaced p n) := by
  refine ⟨?_, ?_, ?_, ?_⟩
  · intro tally e he hex
    have hany : tally.any (fun e => decide (e.2 ≠ 0)) = true := by
      rw [List.any_eq_true]
      obtain ⟨e2, he2, hne⟩ := hex
      exact ⟨e2, he2, by simpa using hne⟩
    unfold report_lines
    rw [hany]
    simp only [if_true]
    exact List.mem_map_of_mem tally_line he
  · intro tally hall
    have hany : tally.any (fun e => decide (e.2 ≠ 0)) = false := by
      rw [List.any_eq_false]
      intro e he
      simpa using hall e he
    unfold report_lines
    rw [hany]
    simp
  · intro p n hn
    unfold tally_line
    simp [hn]
  · intro p n hn
    unfold tally_line
    have : ¬((p, n).2 < 0) := by simp; omega
    simp [this]

theorem C9_witness :
    tally_line (['f'], -1) ∈ report_lines [(['f'], -1), (['g'], 0)] :=
  C9_amended_report_all_entries.1 [(['f'], -1), (['g'], 0)] (['f'], -1)
    (by decide) ⟨(['f'], -1), by decide, by decide⟩

/-- C5: the text scrub processes targets in TargetSet order, and for
each target scans left to right: if no match remains at or after the
cursor the pass is finished with no further changes; at a match it
splices in the replacement, resumes strictly after the inserted
replacement (never re-scanning inserted text), and bumps the count by -1
for an empty replacement and +1 for a non-empty one; each subsequent
target runs over the already-modified content.  In particular
`"foo bar foo"` with target `"foo"` and empty replacement yields
`" bar "` with count -2. -/
theorem C5_text_algorithm :
    (∀ (content tgt repl : List Char) (pos : Nat), tgt ≠ [] →
      (findFrom content tgt pos = none →
        textScanFrom content tgt repl pos = (content, 0)) ∧
      (∀ i, findFrom content tgt pos = some i →
        textScanFrom content tgt repl pos =
          ((textScanFrom (content.take i ++ repl ++ content.drop (i + tgt.length))
              tgt repl (i + repl.length)).1,
           (textScanFrom (content.take i ++ repl ++ content.drop (i + tgt.length))
              tgt repl (i + repl.length)).2 +
             (if repl.length ≠ 0 then 1 else -1)))) ∧
    (∀ (repl content t : List Char) (ts : List (List Char)),
      process_text_all repl content (t :: ts) =
        ((process_text_all repl (process_text_pass content t repl).1 ts).1,
         (process_text_pass content t repl).2 +
           (process_text_all repl (process_text_pass content t repl).1 ts).2)) ∧
    (∀ content tgt repl : List Char,
      process_text_pass content tgt repl = textScanFrom content tgt repl 0) ∧
    process_text_pass "foo bar foo".toList "foo".toList [] = (" bar ".toList, -2) := by
  refine ⟨?_, ?_, ?_, ?_⟩
  · intro content tgt repl pos htgt
    have htlen : 1 ≤ tgt.length := by
      cases tgt with
      | nil => exact absurd rfl htgt
      | cons t ts => simp
    constructor
    · intro hf
      simp [textScanFrom, replaceLoop, hf]
    · intro i hf
      obtain ⟨hple, -, -⟩ := findFrom_some hf
      have hbound := findFrom_some_bound htgt hf
      have hlen2 := splice_length repl hbound
      have hstep : textScanFrom content tgt repl pos =
          ((replaceLoop tgt repl content.length
              (content.take i ++ repl ++ content.drop (i + tgt.length))
              (i + repl.length)).1,
           (replaceLoop tgt repl content.length
              (content.take i ++ repl ++ content.drop (i + tgt.length))
              (i + repl.length)).2 + (if repl.length ≠ 0 then 1 else -1)) := by
        simp [textScanFrom, replaceLoop, hf]
      rw [hstep]
      have hfuel : replaceLoop tgt repl content.length
          (content.take i ++ repl ++ content.drop (i + tgt.length)) (i + repl.length) =
          textScanFrom (content.take i ++ repl ++ content.drop (i + tgt.length))
            tgt repl (i + repl.length) := by
        unfold textScanFrom
        exact replaceLoop_fuel htgt content.length _ _ (i + repl.length)
          (by omega) (by omega)
      rw [hfuel]
  · intro repl content t ts
    rfl
  · intro content tgt repl
    rfl
  · decide

theorem C5_witness :
    textScanFrom "ab".toList "b".toList "c".toList 0 =
      ((textScanFrom ("ab".toList.take 1 ++ "c".toList ++
          "ab".toList.drop (1 + "b".toList.length)) "b".toList "c".toList
          (1 + "c".toList.length)).1,
       (textScanFrom ("ab".toList.take 1 ++ "c".toList ++
          "ab".toList.drop (1 + "b".toList.length)) "b".toList "c".toList
          (1 + "c".toList.length)).2 +
         (if "c".toList.length ≠ 0 then 1 else -1)) :=
  (C5_text_algorithm.1 "ab".toList "b".toList "c".toList 0 (by decide)).2 1 (by decide)

/-- C6: for every binary input buffer, every TargetSet, and every clear
element, the buffer length after the full binary clear pass over all
targets equals the input buffer length. -/
theorem C6_length_invariant (c : Nat) (buf : List Nat) (tgts : List (List Nat)) :
    ((process_binary_all c buf tgts).1).length = buf.length :=
  length_process_binary_all c tgts buf

/-- C4: for a non-empty target, the binary clear pass returns count
`-k` where `k` is the number of greedy left-to-right non-overlapping
occurrences; those occurrence offsets are genuine matches of the
original buffer, pairwise non-overlapping, and cover every occurrence;
the output has the same length, carries the clear element at every
position of every matched run, and is unchanged everywhere else. -/
theorem C4_binary_exact_count (buf tgt : List Nat) (c : Nat) (htgt : tgt ≠ []) :
    (process_binary_pass buf tgt c).2 = -(((greedyPositions tgt buf).length : Int)) ∧
    ((process_binary_pass buf tgt c).1).length = buf.length ∧
    (∀ p ∈ greedyPositions tgt buf,
       matchAt tgt (buf.drop p) = true ∧ p + tgt.length ≤ buf.length) ∧
    List.Pairwise (fun a b => a + tgt.length ≤ b) (greedyPositions tgt buf) ∧
    (∀ j, matchAt tgt (buf.drop j) = true →
       ∃ p ∈ greedyPositions tgt buf, p ≤ j ∧ j < p + tgt.length) ∧
    (∀ p ∈ greedyPositions tgt buf, ∀ j, p ≤ j → j < p + tgt.length →
       ((process_binary_pass buf tgt c).1).get? j = some c) ∧
    (∀ j, (∀ p ∈ greedyPositions tgt buf, ¬(p ≤ j ∧ j < p + tgt.length)) →
       ((process_binary_pass buf tgt c).1).get? j = buf.get? j) := by
  refine ⟨?_, length_process_binary_pass buf tgt c, ?_, ?_, ?_, ?_, ?_⟩
  · rw [process_binary_pass_eq]
  · intro p hp
    exact ((greedyPosLoop_mem htgt (buf.length + 1) 0 p hp).2)
  · exact greedyPosLoop_sep htgt (buf.length + 1) 0
  · intro j hm
    exact greedyPosLoop_complete htgt (buf.length + 1) 0 j (by omega) (by omega) hm
  · intro p hp j hpj hjp
    rw [process_binary_pass_eq]
    have hmem := greedyPosLoop_mem htgt (buf.length + 1) 0 p hp
    exact clearRanges_get?_inside c tgt.length (greedyPositions tgt buf) buf j
      ⟨p, hp, hpj, hjp⟩ (by omega)
  · intro j hout
    rw [process_binary_pass_eq]
    exact clearRanges_get?_outside c tgt.length (greedyPositions tgt buf) buf j hout

theorem C4_witness :
    (process_binary_pass [1, 2, 1, 2] [1, 2] 0).2 =
        -(((greedyPositions [1, 2] [1, 2, 1, 2]).length : Int)) ∧
    ((process_binary_pass [1, 2, 1, 2] [1, 2] 0).1).length = ([1, 2, 1, 2] : List Nat).length ∧
    (∀ p ∈ greedyPositions [1, 2] [1, 2, 1, 2],
       matchAt [1, 2] (([1, 2, 1, 2] : List Nat).drop p) = true ∧
         p + ([1, 2] : List Nat).length ≤ ([1, 2, 1, 2] : List Nat).length) ∧
    List.Pairwise (fun a b => a + ([1, 2] : List Nat).length ≤ b)
      (greedyPositions [1, 2] [1, 2, 1, 2]) ∧
    (∀ j, matchAt [1, 2] (([1, 2, 1, 2] : List Nat).drop j) = true →
       ∃ p ∈ greedyPositions [1, 2] [1, 2, 1, 2],
         p ≤ j ∧ j < p + ([1, 2] : List Nat).length) ∧
    (∀ p ∈ greedyPositions [1, 2] [1, 2, 1, 2],
       ∀ j, p ≤ j → j < p + ([1, 2] : List Nat).length →
         ((process_binary_pass [1, 2, 1, 2] [1, 2] 0).1).get? j = some 0) ∧
    (∀ j, (∀ p ∈ greedyPositions [1, 2] [1, 2, 1, 2],
        ¬(p ≤ j ∧ j < p + ([1, 2] : List Nat).length)) →
       ((process_binary_pass [1, 2, 1, 2] [1, 2] 0).1).get? j =
         ([1, 2, 1, 2] : List Nat).get? j) :=
  C4_binary_exact_count [1, 2, 1, 2] [1, 2] 0 (by decide)

/-- The (offset, length) extents of the runs the full binary clear
overwrites: for each target pass, the greedy match offsets against the
buffer as that pass sees it. -/
def binaryRuns (c : α) : List α → List (List α) → List (Nat × Nat)
  | _, [] => []
  | buf, t :: ts =>
    (greedyPositions t buf).map (fun p => (p, t.length)) ++
      binaryRuns c (process_binary_pass buf t c).1 ts

/-- C10: every byte position not inside any run matched by some target
pass is left equal to the corresponding input byte by the full binary
clear. -/
theorem C10_frame (c : Nat) (tgts : List (List Nat)) :
    ∀ (buf : List Nat) (j : Nat),
      (∀ r ∈ binaryRuns c buf tgts, ¬(r.1 ≤ j ∧ j < r.1 + r.2)) →
      ((process_binary_all c buf tgts).1).get? j = buf.get? j := by
  induction tgts with
  | nil => intro buf j h; rfl
  | cons t ts ih =>
    intro buf j h
    simp only [process_binary_all]
    have hrest : ∀ r ∈ binaryRuns c (process_binary_pass buf t c).1 ts,
        ¬(r.1 ≤ j ∧ j < r.1 + r.2) := by
      intro r hr
      exact h r (by simp [binaryRuns, hr])
    rw [ih (process_binary_pass buf t c).1 j hrest]
    rw [process_binary_pass_eq]
    apply clearRanges_get?_outside
    intro p hp
    have hpr : (p, t.length) ∈ binaryRuns c buf (t :: ts) := by
      simp only [binaryRuns, List.mem_append, List.mem_map]
      exact Or.inl ⟨p, hp, rfl⟩
    exact h (p, t.length) hpr

theorem C10_witness :
    ((process_binary_all 0 [5, 6] [[6]]).1).get? 0 = ([5, 6] : List Nat).get? 0 :=
  C10_frame 0 [[6]] [5, 6] 0 (by decide)

/-- C7, counterexample: text clear mode is not idempotent.  With content
`"aabb"` and target `"ab"`, the first clear run removes the middle
`"ab"` leaving `"ab"` (count -1), whose fragments joined into a fresh
occurrence; a second clear run therefore removes it too (count -1,
content changed), not zero changes. -/
theorem C7_counterexample :
    process_text_all ([] : List Char) "aabb".toList ["ab".toList] = ("ab".toList, -1) ∧
    (process_text_all ([] : List Char)
        (process_text_all ([] : List Char) "aabb".toList ["ab".toList]).1
        ["ab".toList]).2 ≠ 0 ∧
    (process_text_all ([] : List Char)
        (process_text_all ([] : List Char) "aabb".toList ["ab".toList]).1
        ["ab".toList]).1 ≠
      (process_text_all ([] : List Char) "aabb".toList ["ab".toList]).1 := by
  refine ⟨by decide, by decide, by decide⟩

/-- C7, amended: the binary clear is idempotent whenever no target
contains the clear byte (and targets are non-empty): a second full
binary clear run over the first run's output makes zero changes — count
0 and content unchanged.  (Text clear with empty replacement is not
idempotent in general, as removal can join fragments into new matches;
in binary mode a target consisting of clear bytes similarly re-matches.) -/
theorem C7_amended_binary_idempotent (c : Nat) (buf : List Nat) (tgts : List (List Nat))
    (h1 : ∀ t ∈ tgts, t ≠ []) (h2 : ∀ t ∈ tgts, c ∉ t) :
    process_binary_all c (process_binary_all c buf tgts).1 tgts =
      ((process_binary_all c buf tgts).1, 0) :=
  process_binary_all_of_no_match tgts (process_binary_all c buf tgts).1
    (fun t ht => process_binary_all_no_match tgts buf h1 h2 t ht)

theorem C7_witness :
    process_binary_all 0 (process_binary_all 0 [1, 2, 1] [[1, 2]]).1 [[1, 2]] =
      ((process_binary_all 0 [1, 2, 1] [[1, 2]]).1, 0) :=
  C7_amended_binary_idempotent 0 [1, 2, 1] [[1, 2]] (by decide) (by decide)

theorem nodup_pair {a b : List Char} (h1 : b ≠ a) :
    ([a, b] : List (List Char)).Nodup := by
  simp [List.nodup_cons, Ne.symm h1]

theorem append_singleton_nodup {l : List (List Char)} {x : List Char}
    (hl : l.Nodup) (hx : x ∉ l) : (l ++ [x]).Nodup := by
  rw [(List.perm_append_singleton x l).nodup_iff]
  exact List.nodup_cons.mpr ⟨hx, hl⟩

theorem formsAfterAbs_sub {input absf x : List Char}
    (h : x ∈ formsAfterAbs input absf) : x = input ∨ x = absf := by
  unfold formsAfterAbs at h
  split_ifs at h
  · simpa using h
  · exact Or.inl (by simpa using h)

theorem formsAfterAbs_nodup (input absf : List Char) :
    (formsAfterAbs input absf).Nodup := by
  unfold formsAfterAbs
  split_ifs with h1
  · exact nodup_pair h1.2
  · simp

theorem formsAfterCanon_sub {input absf : List Char} {canonOk : Bool}
    {canonv x : List Char} (h : x ∈ formsAfterCanon input absf canonOk canonv) :
    x = input ∨ x = absf ∨ x = canonv := by
  unfold formsAfterCanon at h
  split_ifs at h with h1
  · rcases List.mem_append.mp h with h2 | h2
    · rcases formsAfterAbs_sub h2 with h3 | h3
      · exact Or.inl h3
      · exact Or.inr (Or.inl h3)
    · exact Or.inr (Or.inr (by simpa using h2))
  · rcases formsAfterAbs_sub h with h3 | h3
    · exact Or.inl h3
    · exact Or.inr (Or.inl h3)

theorem formsAfterCanon_nodup (input absf : List Char) (canonOk : Bool)
    (canonv : List Char) : (formsAfterCanon input absf canonOk canonv).Nodup := by
  unfold formsAfterCanon
  split_ifs with h1
  · apply append_singleton_nodup (formsAfterAbs_nodup input absf)
    intro hmem
    rcases formsAfterAbs_sub hmem with h2 | h2
    · exact h1.2.2.1 h2
    · exact h1.2.2.2 h2
  · exact formsAfterAbs_nodup input absf

theorem formsAfterNorm_nodup (input absf : List Char) (canonOk : Bool)
    (canonv normf : List Char) :
    (formsAfterNorm input absf canonOk canonv normf).Nodup := by
  unfold formsAfterNorm
  split_ifs with h1
  · apply append_singleton_nodup (formsAfterCanon_nodup input absf canonOk canonv)
    intro hmem
    rcases formsAfterCanon_sub hmem with h2 | h2 | h2
    · exact h1.2.1 h2
    · exact h1.2.2.1 h2
    · exact h1.2.2.2 h2
  · exact formsAfterCanon_nodup input absf canonOk canonv

/-- The distinctness checks of `expand_path_forms` compare each new form
against all previously considered forms, so the collected list has no
duplicates. -/
theorem collect_path_forms_nodup (input : List Char) (pexists : Bool) (absf : List Char)
    (canonOk : Bool) (canonf normf : List Char) :
    (collect_path_forms input pexists absf canonOk canonf normf).Nodup := by
  unfold collect_path_forms
  split_ifs
  · exact formsAfterNorm_nodup input absf canonOk _ normf
  · exact formsAfterNorm_nodup input absf canonOk _ normf
  · exact List.nodup_singleton input

theorem input_mem_collect_path_forms (input : List Char) (pexists : Bool)
    (absf : List Char) (canonOk : Bool) (canonf normf : List Char) :
    input ∈ collect_path_forms input pexists absf canonOk canonf normf := by
  have h1 : input ∈ formsAfterAbs input absf := by
    unfold formsAfterAbs
    split_ifs <;> simp
  have h2 : ∀ cv : List Char, input ∈ formsAfterCanon input absf canonOk cv := by
    intro cv
    unfold formsAfterCanon
    split_ifs
    · exact List.mem_append_left _ h1
    · exact h1
  have h3 : ∀ cv : List Char, input ∈ formsAfterNorm input absf canonOk cv normf := by
    intro cv
    unfold formsAfterNorm
    split_ifs
    · exact List.mem_append_left _ (h2 cv)
    · exact h2 cv
  unfold collect_path_forms
  split_ifs
  · exact h3 _
  · exact h3 _
  · exact List.mem_singleton.mpr rfl

/-- C8, counterexample: expanding the existing relative path `"d"` whose
absolute form is `"/t/d"` (canonical form equal to the absolute one,
normalized form equal to the original) yields `["/t/d", "d"]` — sorted
longest-first — so the original string is not the first element of the
output. -/
theorem C8_counterexample :
    expand_path_forms "d".toList true "/t/d".toList true "/t/d".toList "d".toList =
      ["/t/d".toList, "d".toList] ∧
    (expand_path_forms "d".toList true "/t/d".toList true "/t/d".toList
        "d".toList).head? = some "/t/d".toList ∧
    ("/t/d".toList : List Char) ≠ "d".toList := by
  refine ⟨by decide, by decide, by decide⟩

/-- C8, amended: for a non-empty input the output is exactly the
collected spellings — the original plus, when the path exists, the
absolute, canonical, and normalized forms, each kept only if distinct
from all forms already considered (the list is duplicate-free) — put
into descending (length, lexicographic) order by the final sort; the
original is always a member, but need not be first. -/
theorem C8_amended_sorted_forms (input : List Char) (pexists : Bool) (absf : List Char)
    (canonOk : Bool) (canonf normf : List Char) (h : input ≠ []) :
    input ∈ expand_path_forms input pexists absf canonOk canonf normf ∧
    List.Perm (expand_path_forms input pexists absf canonOk canonf normf)
      (collect_path_forms input pexists absf canonOk canonf normf) ∧
    List.Pairwise (fun a b => formBefore b a = false)
      (expand_path_forms input pexists absf canonOk canonf normf) ∧
    (expand_path_forms input pexists absf canonOk canonf normf).Nodup := by
  have hne : ¬(input.length = 0) := fun h0 => h (List.length_eq_zero.mp h0)
  have hexp : expand_path_forms input pexists absf canonOk canonf normf =
      sortForms (collect_path_forms input pexists absf canonOk canonf normf) := by
    unfold expand_path_forms
    rw [if_neg hne]
  refine ⟨?_, ?_, ?_, ?_⟩
  · rw [hexp]
    exact (sortForms_perm _).mem_iff.mpr
      (input_mem_collect_path_forms input pexists absf canonOk canonf normf)
  · rw [hexp]
    exact sortForms_perm _
  · rw [hexp]
    exact sortForms_pairwise _
  · rw [hexp]
    exact (sortForms_perm _).nodup_iff.mpr
      (collect_path_forms_nodup input pexists absf canonOk canonf normf)

theorem C8_witness :
    "d".toList ∈ expand_path_forms "d".toList true "/t/d".toList true "/t/d".toList
        "d".toList ∧
    List.Perm (expand_path_forms "d".toList true "/t/d".toList true "/t/d".toList
        "d".toList)
      (collect_path_forms "d".toList true "/t/d".toList true "/t/d".toList
        "d".toList) ∧
    List.Pairwise (fun a b => formBefore b a = false)
      (expand_path_forms "d".toList true "/t/d".toList true "/t/d".toList
        "d".toList) ∧
    (expand_path_forms "d".toList true "/t/d".toList true "/t/d".toList
        "d".toList).Nodup :=
  C8_amended_sorted_forms "d".toList true "/t/d".toList true "/t/d".toList
    "d".toList (by decide)

end StrClear
